import Mathlib

/-!
Verification of the book-rag repository core (src/src/rag.py, src/src/db.py,
src/src/config.py, src/main.py) against its natural-language specification.

The Python code is shallowly embedded: text is `String`/`List Char`, the
Chroma collection is a list of records, exceptions become `Option`/`Except`,
and the embedding/chat/search providers are function parameters.  Functions
that the Python source runs as unbounded `while` loops are embedded with an
explicit fuel parameter so that non-termination of the source is observable
as `none` for every fuel.
-/

deriving instance DecidableEq for Except

/-! ### Python string primitives -/

/-- Python's whitespace set for `str.strip()` (ASCII part). -/
def isPySpace (c : Char) : Bool :=
  c = ' ' || c = '\t' || c = '\n' || c = '\r' || c = '\x0b' || c = '\x0c'

/-- Python `str.strip()`: drop leading and trailing whitespace. -/
def pyStrip (l : List Char) : List Char :=
  ((l.dropWhile isPySpace).reverse.dropWhile isPySpace).reverse

/-- Python slicing `s[a:b]` for arbitrary integer bounds (negative indices
count from the end, out of range clamps). -/
def pySlice (s : List Char) (a b : ℤ) : List Char :=
  let n : ℤ := s.length
  let a' : ℤ := if a < 0 then max 0 (n + a) else min a n
  let b' : ℤ := if b < 0 then max 0 (n + b) else min b n
  (s.take b'.toNat).drop a'.toNat

/-! ### The chunker (`chunk_text` in src/src/rag.py and src/main.py)

```python
chunks = []
start = 0
while start < len(text):
    end = start + chunk_size
    chunk = text[start:end]
    if chunk.strip():
        chunks.append(chunk.strip())
    start += chunk_size - overlap
return chunks
```

The loop is embedded with fuel: `none` means the loop is still running after
`fuel` iterations, so "the source loops forever" is `∀ fuel, ... = none`.
The cursor is an integer, as in Python, so a negative step is represented
faithfully. -/

def chunkLoop (text : List Char) (size overlap : ℕ) :
    ℕ → ℤ → List String → Option (List String)
  | fuel, start, acc =>
    if start < (text.length : ℤ) then
      match fuel with
      | 0 => none
      | fuel + 1 =>
        let chunk : List Char := pyStrip (pySlice text start (start + size))
        chunkLoop text size overlap fuel (start + ((size : ℤ) - (overlap : ℤ)))
          (if chunk.isEmpty then acc else acc ++ [String.mk chunk])
    else
      some acc

/-- `chunk_text(text)` from src/src/rag.py, with the settings-supplied size
and overlap as parameters.  When `overlap < size` each iteration advances the
cursor by at least one, so `text.length + 1` units of fuel always suffice
(proved below); for a misconfiguration the loop never finishes and this
wrapper falls back to `[]`. -/
def chunk_text (size overlap : ℕ) (text : String) : List String :=
  (chunkLoop text.data size overlap (text.data.length + 1) 0 []).getD []

/-- The chunking loop at `overlap >= size` never terminates on this text:
no amount of fuel makes the Python `while` loop exit. -/
def chunkDiverges (size overlap : ℕ) (text : String) : Prop :=
  ∀ fuel, chunkLoop text.data size overlap fuel 0 [] = none

/-! ### Settings validation (src/src/config.py)

```python
def validate(self):
    if self.llm_provider == "gemini" and not self.google_api_key:
        raise ValueError("GOOGLE_API_KEY ...")
    if self.llm_provider not in ("gemini", "ollama"):
        raise ValueError("LLM_PROVIDER ...")
```

Only the fields `validate` reads, plus the chunking configuration, are
modelled; the remaining provider-model fields never influence any claim. -/

structure Settings where
  llm_provider : String
  google_api_key : String
  chunk_size : ℕ
  chunk_overlap : ℕ

def Settings.validate (s : Settings) : Except String Unit :=
  if s.llm_provider = "gemini" ∧ s.google_api_key = "" then
    .error "GOOGLE_API_KEY environment variable is required when using Gemini."
  else if s.llm_provider ≠ "gemini" ∧ s.llm_provider ≠ "ollama" then
    .error "LLM_PROVIDER must be gemini or ollama"
  else
    .ok ()

/-! ### Lemmas about the chunking loop -/

theorem chunkLoop_stuck (text : List Char) (size overlap : ℕ)
    (hov : size ≤ overlap) (ht : text ≠ []) :
    ∀ (fuel : ℕ) (start : ℤ) (acc : List String), start ≤ 0 →
      chunkLoop text size overlap fuel start acc = none := by
  intro fuel
  induction fuel with
  | zero =>
    intro start acc hstart
    rw [chunkLoop]
    have hlen : 0 < (text.length : ℤ) := by
      have := List.length_pos.mpr ht
      exact_mod_cast this
    simp [lt_of_le_of_lt hstart hlen]
  | succ n ih =>
    intro start acc hstart
    rw [chunkLoop]
    have hlen : 0 < (text.length : ℤ) := by
      have := List.length_pos.mpr ht
      exact_mod_cast this
    simp only [lt_of_le_of_lt hstart hlen, if_true]
    apply ih
    have hstep : (size : ℤ) - (overlap : ℤ) ≤ 0 := by
      have : (size : ℤ) ≤ (overlap : ℤ) := by exact_mod_cast hov
      omega
    omega

theorem chunkLoop_isSome (text : List Char) (size overlap : ℕ)
    (hov : overlap < size) :
    ∀ (fuel : ℕ) (start : ℤ) (acc : List String),
      (text.length : ℤ) < start + fuel →
      (chunkLoop text size overlap fuel start acc).isSome := by
  intro fuel
  induction fuel with
  | zero =>
    intro start acc hfuel
    rw [chunkLoop]
    have : ¬ start < (text.length : ℤ) := by omega
    simp [this]
  | succ n ih =>
    intro start acc hfuel
    rw [chunkLoop]
    by_cases hlt : start < (text.length : ℤ)
    · simp only [hlt, if_true]
      apply ih
      have : (1 : ℤ) ≤ (size : ℤ) - (overlap : ℤ) := by
        have : (overlap : ℤ) < (size : ℤ) := by exact_mod_cast hov
        omega
      push_cast at hfuel ⊢
      omega
    · simp [hlt]

/-- Claim C1.  The spec requires that chunking with `overlap >= size` fail
fast with a configuration error and never loop.  In the code, for every
nonempty text and every such configuration the chunking loop runs forever,
and `Settings.validate` accepts the configuration (it only checks the LLM
provider fields, never the chunk size/overlap), so no configuration error is
ever raised. -/
theorem chunking_misconfig_loops_forever (size overlap : ℕ) (text : String)
    (hov : size ≤ overlap) (ht : text.data ≠ []) (s : Settings)
    (hs : s.llm_provider = "ollama") :
    chunkDiverges size overlap text ∧ Settings.validate s = .ok () := by
  constructor
  · intro fuel
    exact chunkLoop_stuck text.data size overlap hov ht fuel 0 [] le_rfl
  · rw [Settings.validate]
    rw [hs]
    simp

theorem chunking_misconfig_loops_forever_witness :
    chunkDiverges 1 1 "A" ∧
      Settings.validate ⟨"ollama", "", 1, 1⟩ = .ok () :=
  chunking_misconfig_loops_forever 1 1 "A" (by decide) (by decide)
    ⟨"ollama", "", 1, 1⟩ rfl

/-! ### Decimal rendering of a natural number (Python `str(i)` inside the
f-string `f"{book_id}_chunk_{i}"`).  Embedded with fuel so it evaluates in
the kernel; `n + 1` fuel always suffices. -/

def digChar (d : ℕ) : Char := Char.ofNat (48 + d)

def natToDigitsF : ℕ → ℕ → List Char
  | 0, _ => []
  | fuel + 1, n =>
    if n < 10 then [digChar n]
    else natToDigitsF fuel (n / 10) ++ [digChar (n % 10)]

def natRepr (n : ℕ) : String := ⟨natToDigitsF (n + 1) n⟩

/-! ### Python `str.split` and substring containment, on `List Char`.

`splitOnLF sep fuel s` splits `s` at every leftmost non-overlapping
occurrence of `sep`; each step consumes at least one character, so
`s.length` fuel suffices.  `occursIn sep s` is Python's `sep in s`. -/

def occursIn (sep : List Char) : List Char → Bool
  | [] => sep.isEmpty
  | c :: rest => sep.isPrefixOf (c :: rest) || occursIn sep rest

def splitOnLF (sep : List Char) : ℕ → List Char → List (List Char)
  | _, [] => [[]]
  | 0, _ :: _ => [[]]
  | fuel + 1, c :: rest =>
    if !sep.isEmpty && sep.isPrefixOf (c :: rest) then
      [] :: splitOnLF sep fuel ((c :: rest).drop sep.length)
    else
      match splitOnLF sep fuel rest with
      | [] => [[c]]
      | seg :: segs => (c :: seg) :: segs

def splitOnL (sep s : List Char) : List (List Char) := splitOnLF sep s.length s

def intercalateL (sep : List Char) : List (List Char) → List Char
  | [] => []
  | [x] => x
  | x :: y :: xs => x ++ sep ++ intercalateL sep (y :: xs)

/-- Python `s.split(sep, 1)` (maxsplit = 1). -/
def splitOnce (sep s : List Char) : List (List Char) :=
  match splitOnL sep s with
  | [] => [s]
  | [a] => [a]
  | a :: rest => [a, intercalateL sep rest]

/-! ### The text normalizer (`clean_gutenberg_text`, src/src/rag.py)

```python
if "*** START OF" in text:
    text = text.split("*** START OF")[1].split("***", 1)[1]
if "*** END OF" in text:
    text = text.split("*** END OF")[0]
return text
```

`[1]` on a one-element list raises `IndexError`; that is the `none` result. -/

def startMarker : List Char := "*** START OF".data

def sepStars : List Char := "***".data

def endMarker : List Char := "*** END OF".data

/-- First statement of the normalizer:
`text = text.split("*** START OF")[1].split("***", 1)[1]`, guarded by
`"*** START OF" in text`; `none` is Python's `IndexError` on `[1]`. -/
def cleanStart (t : List Char) : Option (List Char) :=
  if occursIn startMarker t then
    ((splitOnL startMarker t)[1]?).bind (fun afterM => (splitOnce sepStars afterM)[1]?)
  else some t

/-- Second statement of the normalizer:
`text = text.split("*** END OF")[0]`, guarded by `"*** END OF" in text`. -/
def cleanEnd (t : List Char) : List Char :=
  if occursIn endMarker t then (splitOnL endMarker t).headD [] else t

def clean_gutenberg_text (text : String) : Option String :=
  (cleanStart text.data).map (fun t1 => ⟨cleanEnd t1⟩)

/-! ### The vector store (src/src/db.py over ChromaDB)

A collection is a list of records in insertion order; the embedding type `E`
is abstract (the provider is out of scope). -/

structure ChunkRecord (E : Type) where
  id : String
  emb : E
  doc : String
  book : String
  title : String
deriving DecidableEq

abbrev Store (E : Type) := List (ChunkRecord E)

/-- `collection.count()`. -/
def collection_count {E : Type} (store : Store E) : ℕ := store.length

/-- `delete_book`: `collection.delete(where={"book": book_id})`. -/
def delete_book {E : Type} (store : Store E) (book_id : String) : Store E :=
  store.filter (fun r => r.book != book_id)

/-- `add_chunks`: one batched `collection.add` with ids
`f"{book_id}_chunk_{i}"`, documents `chunks`, metadatas
`{book: book_id, title: title}`. -/
def add_chunks {E : Type} [Inhabited E] (store : Store E) (chunks : List String)
    (embeddings : List E) (book_id title : String) : Store E :=
  store ++ (List.range chunks.length).map (fun i =>
    { id := book_id ++ "_chunk_" ++ natRepr i
      emb := embeddings.getD i default
      doc := chunks.getD i ""
      book := book_id
      title := title })

/-- Python's `title or book_id`: `None` and `""` are falsy. -/
def pyOrString (t : Option String) (d : String) : String :=
  match t with
  | none => d
  | some s => if s = "" then d else s

/-! ### The ingestion orchestrator (`ingest_book`, src/src/rag.py)

```python
clean_text = clean_gutenberg_text(text)
chunks = chunk_text(clean_text)
delete_book(book_id)
embeddings = [...]           # per chunk, with optional progress callback
add_chunks(chunks, embeddings, book_id, title or book_id)
return len(chunks)
```

`ingest_book` is the success path (no exception from the callback); `none`
is a normalizer `IndexError`.  `ingest_book_cb` additionally models the
progress callback as a fallible observer and returns the store state at the
point any exception escapes. -/

def ingest_book {E : Type} [Inhabited E] (size overlap : ℕ) (embed : String → E)
    (store : Store E) (text book_id : String) (title : Option String) :
    Option (Store E × ℕ) :=
  match clean_gutenberg_text text with
  | none => none
  | some clean_text =>
    let chunks := chunk_text size overlap clean_text
    let store1 := delete_book store book_id
    let embeddings := chunks.map embed
    some (add_chunks store1 chunks embeddings book_id (pyOrString title book_id),
      chunks.length)

inductive IngestError (ε : Type) where
  | cleanFailed
  | callbackRaised (e : ε)
deriving DecidableEq

/-- The embedding loop of `ingest_book`:
`progress_callback(i + 1, len(chunks))` runs after each chunk's embedding and
its exception propagates (there is no `try`/`except` around it). -/
def embedLoop {E ε : Type} (embed : String → E) (cb : ℕ → ℕ → Except ε Unit)
    (total : ℕ) : List String → ℕ → List E → Except ε (List E)
  | [], _, acc => .ok acc
  | c :: rest, i, acc =>
    let e := embed c
    match cb (i + 1) total with
    | .error err => .error err
    | .ok _ => embedLoop embed cb total rest (i + 1) (acc ++ [e])

def ingest_book_cb {E ε : Type} [Inhabited E] (size overlap : ℕ)
    (embed : String → E) (cb : ℕ → ℕ → Except ε Unit) (store : Store E)
    (text book_id : String) (title : Option String) :
    Store E × Except (IngestError ε) ℕ :=
  match clean_gutenberg_text text with
  | none => (store, .error .cleanFailed)
  | some clean_text =>
    let chunks := chunk_text size overlap clean_text
    let store1 := delete_book store book_id
    match embedLoop embed cb chunks.length chunks 0 [] with
    | .error e => (store1, .error (.callbackRaised e))
    | .ok embeddings =>
      (add_chunks store1 chunks embeddings book_id (pyOrString title book_id),
        .ok chunks.length)

/-! ### The query orchestrator (`query_books`, src/src/rag.py)

The similarity search itself lives in ChromaDB (out of scope), so it is a
function parameter returning `(document, book-tag)` pairs; the embedding and
chat providers are fallible function parameters. -/

inductive QueryError (PErr : Type) where
  | emptyKB
  | provider (e : PErr)
deriving DecidableEq

structure QueryResult where
  answer : String
  sources : List (String × String)
deriving DecidableEq

def query_books {E PErr : Type} (embed : String → Except PErr E)
    (searchFn : E → ℕ → Option String → List (String × Option String))
    (chat : String → String → Except PErr String)
    (store : Store E) (question : String) (book_id : Option String)
    (n_results : ℕ) : Except (QueryError PErr) QueryResult :=
  if collection_count store = 0 then
    .error .emptyKB
  else
    match embed question with
    | .error e => .error (.provider e)
    | .ok qe =>
      let results := searchFn qe n_results book_id
      let context := String.intercalate "\n\n---\n\n" (results.map Prod.fst)
      match chat question context with
      | .error e => .error (.provider e)
      | .ok ans =>
        .ok ⟨ans, results.map (fun p => (p.2.getD "unknown", ⟨p.1.data.take 200⟩))⟩

/-! ### Store-level lemmas -/

theorem delete_book_delete_book {E : Type} (store : Store E) (book_id : String) :
    delete_book (delete_book store book_id) book_id = delete_book store book_id := by
  simp [delete_book, List.filter_filter]

theorem book_mem_add_chunks {E : Type} [Inhabited E] (chunks : List String)
    (embeddings : List E) (book_id title : String) (r : ChunkRecord E)
    (hr : r ∈ (List.range chunks.length).map (fun i =>
      ({ id := book_id ++ "_chunk_" ++ natRepr i
         emb := embeddings.getD i default
         doc := chunks.getD i ""
         book := book_id
         title := title } : ChunkRecord E))) : r.book = book_id := by
  obtain ⟨i, -, rfl⟩ := List.mem_map.mp hr
  rfl

theorem delete_book_add_chunks {E : Type} [Inhabited E] (store : Store E)
    (chunks : List String) (embeddings : List E) (book_id title : String) :
    delete_book (add_chunks store chunks embeddings book_id title) book_id =
      delete_book store book_id := by
  rw [add_chunks, delete_book, delete_book, List.filter_append]
  have : ((List.range chunks.length).map (fun i =>
      ({ id := book_id ++ "_chunk_" ++ natRepr i
         emb := embeddings.getD i default
         doc := chunks.getD i ""
         book := book_id
         title := title } : ChunkRecord E))).filter (fun r => r.book != book_id) = [] := by
    rw [List.filter_eq_nil_iff]
    intro r hr
    have hb := book_mem_add_chunks chunks embeddings book_id title r hr
    simp [hb]
  rw [this, List.append_nil]

/-- Claim C2.  Ingesting the same `(text, book_id, title)` a second time
reproduces exactly the store and chunk count of the first ingestion: the
prior chunk records tagged with `book_id` are deleted before the new ones
are written, so no duplicate or stale chunks coexist for one `book_id`. -/
theorem ingest_book_idempotent {E : Type} [Inhabited E] (size overlap : ℕ)
    (embed : String → E) (store : Store E) (text book_id : String)
    (title : Option String) (s₁ : Store E) (n₁ : ℕ)
    (h : ingest_book size overlap embed store text book_id title = some (s₁, n₁)) :
    ingest_book size overlap embed s₁ text book_id title = some (s₁, n₁) := by
  rw [ingest_book] at h ⊢
  cases hc : clean_gutenberg_text text with
  | none => rw [hc] at h; exact absurd h (by simp)
  | some clean_text =>
    rw [hc] at h
    simp only [Option.some.injEq, Prod.mk.injEq] at h
    obtain ⟨hs, hn⟩ := h
    simp only [Option.some.injEq, Prod.mk.injEq]
    refine ⟨?_, hn⟩
    subst hs
    rw [delete_book_add_chunks, delete_book_delete_book]

theorem ingest_book_idempotent_witness :
    ingest_book 10 4 String.length
        ([⟨"alice_chunk_0", 5, "hello", "alice", "alice"⟩] : Store ℕ)
        "hello" "alice" none =
      some ([⟨"alice_chunk_0", 5, "hello", "alice", "alice"⟩], 1) :=
  ingest_book_idempotent 10 4 String.length [] "hello" "alice" none
    [⟨"alice_chunk_0", 5, "hello", "alice", "alice"⟩] 1 (by decide)

/-- Claim C3 counterexample.  The spec's scenario is wrong about the code:
with size 10 and overlap 4 the cursor visits 0, 6, 12 and 18 (18 < 19, so a
fourth window is taken), and window `[6:16)` is `"BBB CCCC D"` after
trimming, not `"BBBB CCCC"`; the ingested chunk count is 4, not 3. -/
theorem chunk_scenario_spec_mismatch :
    chunk_text 10 4 "AAAA BBBB CCCC DDDD" ≠
      ["AAAA BBBB", "BBBB CCCC", "CCCC DDDD"] ∧
    (ingest_book 10 4 String.length ([] : Store ℕ) "AAAA BBBB CCCC DDDD"
        "alice" none).map Prod.snd ≠ some 3 := by
  decide

/-- Claim C3, amended.  Chunking the 19-character text
`"AAAA BBBB CCCC DDDD"` with size 10 and overlap 4 takes the windows at
cursors 0, 6, 12, 18 and yields the trimmed chunks
`["AAAA BBBB", "BBB CCCC D", "CC DDDD", "D"]`, and ingesting this text
returns a chunk count of 4. -/
theorem chunk_scenario_actual :
    chunk_text 10 4 "AAAA BBBB CCCC DDDD" =
      ["AAAA BBBB", "BBB CCCC D", "CC DDDD", "D"] ∧
    (ingest_book 10 4 String.length ([] : Store ℕ) "AAAA BBBB CCCC DDDD"
        "alice" none).map Prod.snd = some 4 := by
  decide

/-- Claim C4.  The spec requires a failing progress callback to be caught
and ignored; in the code the callback runs with no `try`/`except`, so its
exception propagates out of `ingest_book`: here a callback that raises on
its first invocation aborts ingestion after `delete_book` has already run,
leaving the store without the book's prior record and with nothing
upserted, and no chunk count is returned. -/
theorem progress_callback_exception_aborts_ingestion :
    ingest_book_cb 10 4 String.length
        (fun _ _ => (.error "boom" : Except String Unit))
        ([⟨"alice_chunk_0", 5, "hello", "alice", "alice"⟩] : Store ℕ)
        "AAAA BBBB CCCC DDDD" "alice" none =
      ([], .error (.callbackRaised "boom")) := by
  decide

/-- Claim C5.  Querying a zero-record store fails with the distinct
empty-knowledge-base condition.  The theorem holds for every embedding and
chat provider (including ones that always fail), so the result involves no
provider call and is never a provider error; the second conjunct states the
two error conditions are distinct. -/
theorem query_books_empty_store {E PErr : Type} (embed : String → Except PErr E)
    (searchFn : E → ℕ → Option String → List (String × Option String))
    (chat : String → String → Except PErr String) (store : Store E)
    (question : String) (book_id : Option String) (n_results : ℕ)
    (h : collection_count store = 0) :
    query_books embed searchFn chat store question book_id n_results =
        .error .emptyKB ∧
      ∀ e : PErr, (QueryError.emptyKB : QueryError PErr) ≠ .provider e := by
  constructor
  · rw [query_books]
    simp [h]
  · intro e h'
    cases h'

theorem query_books_empty_store_witness :
    query_books (fun _ => (.error "down" : Except String ℕ)) (fun _ _ _ => [])
        (fun _ _ => .error "down") ([] : Store ℕ) "who is Alice?" none 3 =
        .error .emptyKB ∧
      ∀ e : String, (QueryError.emptyKB : QueryError String) ≠ .provider e :=
  query_books_empty_store (fun _ => .error "down") (fun _ _ _ => [])
    (fun _ _ => .error "down") [] "who is Alice?" none 3 (by decide)

theorem delete_book_absent {E : Type} (store : Store E) (a : String) :
    (delete_book store a).filter (fun r => r.book == a) = [] := by
  rw [List.filter_eq_nil_iff]
  intro r hr
  have h := (List.mem_filter.mp hr).2
  simp only [bne_iff_ne, ne_eq] at h
  simp [h]

theorem delete_book_other {E : Type} (store : Store E) (a b : String)
    (hab : a ≠ b) :
    (delete_book store a).filter (fun r => r.book == b) =
      store.filter (fun r => r.book == b) := by
  rw [delete_book, List.filter_filter]
  apply List.filter_congr
  intro r _
  by_cases h : r.book = b
  · have hba : b ≠ a := fun e => hab e.symm
    simp [h, hba]
  · simp [h]

theorem delete_book_noop {E : Type} (store : Store E) (bid : String)
    (h : ∀ r ∈ store, r.book ≠ bid) : delete_book store bid = store := by
  rw [delete_book, List.filter_eq_self]
  intro r hr
  simp [h r hr]

/-- Claim C7.  `delete_book` removes exactly the records tagged with the
given book id: after ingesting book A and then book B, deleting A leaves
B's chunks fully intact (same records, same order) and A's chunks fully
absent; and deleting a book id that tags no record is a no-op, raising no
error and leaving the store unchanged. -/
theorem delete_book_isolation {E : Type} [Inhabited E] (size overlap : ℕ)
    (embed : String → E) (store : Store E) (textA textB A B : String)
    (titleA titleB : Option String) (sA sB : Store E) (nA nB : ℕ) (hAB : A ≠ B)
    (_hA : ingest_book size overlap embed store textA A titleA = some (sA, nA))
    (_hB : ingest_book size overlap embed sA textB B titleB = some (sB, nB)) :
    ((delete_book sB A).filter (fun r => r.book == B) =
        sB.filter (fun r => r.book == B)) ∧
      (delete_book sB A).filter (fun r => r.book == A) = [] ∧
      ∀ (store' : Store E) (bid : String), (∀ r ∈ store', r.book ≠ bid) →
        delete_book store' bid = store' :=
  ⟨delete_book_other sB A B hAB, delete_book_absent sB A,
    fun store' bid h => delete_book_noop store' bid h⟩

def demoStoreAB : Store ℕ :=
  [⟨"alice_chunk_0", 5, "hello", "alice", "alice"⟩,
   ⟨"oz_chunk_0", 5, "world", "oz", "oz"⟩]

theorem delete_book_isolation_witness :
    ((delete_book demoStoreAB "alice").filter (fun r => r.book == "oz") =
        demoStoreAB.filter (fun r => r.book == "oz")) ∧
      (delete_book demoStoreAB "alice").filter (fun r => r.book == "alice") = [] ∧
      ∀ (store' : Store ℕ) (bid : String), (∀ r ∈ store', r.book ≠ bid) →
        delete_book store' bid = store' :=
  delete_book_isolation 10 4 String.length [] "hello" "world" "alice" "oz"
    none none [⟨"alice_chunk_0", 5, "hello", "alice", "alice"⟩] demoStoreAB 1 1
    (by decide) (by decide) (by decide)

/-! ### Chunk windows and coverage (claim C6)

`tile step t` is the sequence of `step`-sized cursor advances: block `k` is
the non-overlap region `[k*step, (k+1)*step)` of the `k`-th chunk window
`[k*step, k*step+size)`. -/

def tileF (step : ℕ) : ℕ → List Char → List (List Char)
  | _, [] => []
  | 0, _ :: _ => []
  | fuel + 1, c :: rest => (c :: rest).take step :: tileF step fuel ((c :: rest).drop step)

def tile (step : ℕ) (t : List Char) : List (List Char) := tileF step t.length t

theorem tileF_join (step : ℕ) (hstep : 1 ≤ step) :
    ∀ (fuel : ℕ) (t : List Char), t.length ≤ fuel → (tileF step fuel t).flatten = t := by
  intro fuel
  induction fuel with
  | zero =>
    intro t ht
    have : t = [] := List.eq_nil_of_length_eq_zero (Nat.le_zero.mp ht)
    subst this
    rfl
  | succ n ih =>
    intro t ht
    cases t with
    | nil => rfl
    | cons c rest =>
      rw [tileF, List.flatten_cons, ih]
      · exact List.take_append_drop step (c :: rest)
      · simp only [List.length_drop, List.length_cons] at *
        omega

theorem tile_join (step : ℕ) (hstep : 1 ≤ step) (t : List Char) :
    (tile step t).flatten = t :=
  tileF_join step hstep t.length t le_rfl

theorem pySlice_nat (s : List Char) (d size : ℕ) :
    pySlice s (d : ℤ) ((d : ℤ) + (size : ℤ)) = (s.drop d).take size := by
  rw [pySlice]
  have ha : ¬ ((d : ℤ) < 0) := by omega
  have hb : ¬ ((d : ℤ) + (size : ℤ) < 0) := by omega
  simp only [ha, hb, if_false]
  have ha' : (min (d : ℤ) (s.length : ℤ)).toNat = min d s.length := by omega
  have hb' : (min ((d : ℤ) + (size : ℤ)) (s.length : ℤ)).toNat = min (d + size) s.length := by
    omega
  rw [ha', hb', List.drop_take]
  by_cases hd : d ≤ s.length
  · have h1 : min d s.length = d := min_eq_left hd
    rw [h1, List.take_eq_take]
    simp only [List.length_drop]
    omega
  · have h1 : min d s.length = s.length := min_eq_right (le_of_not_le hd)
    have h2 : s.drop d = [] := List.drop_eq_nil_of_le (le_of_not_le hd)
    have h3 : s.drop s.length = [] := List.drop_eq_nil_of_le le_rfl
    rw [h1, h2, h3]
    simp

theorem mem_dropWhile (p : Char → Bool) (l : List Char) (c : Char)
    (hc : c ∈ l) (hp : ¬ p c = true) : c ∈ l.dropWhile p := by
  induction l with
  | nil => cases hc
  | cons a as ih =>
    by_cases hpa : p a = true
    · rw [List.dropWhile_cons_of_pos hpa]
      rcases List.mem_cons.mp hc with rfl | hmem
      · exact absurd hpa hp
      · exact ih hmem
    · rw [List.dropWhile_cons_of_neg hpa]
      exact hc

theorem mem_pyStrip (l : List Char) (c : Char) (hc : c ∈ l)
    (hs : ¬ isPySpace c = true) : c ∈ pyStrip l := by
  rw [pyStrip, List.mem_reverse]
  apply mem_dropWhile _ _ _ _ hs
  rw [List.mem_reverse]
  exact mem_dropWhile _ _ _ hc hs

theorem chunkLoop_acc_sub (text : List Char) (size overlap : ℕ) :
    ∀ (fuel : ℕ) (start : ℤ) (acc out : List String),
      chunkLoop text size overlap fuel start acc = some out →
      ∀ x ∈ acc, x ∈ out := by
  intro fuel
  induction fuel with
  | zero =>
    intro start acc out h x hx
    rw [chunkLoop] at h
    by_cases hlt : start < (text.length : ℤ)
    · simp [hlt] at h
    · simp only [hlt, if_false, Option.some.injEq] at h
      exact h ▸ hx
  | succ n ih =>
    intro start acc out h x hx
    rw [chunkLoop] at h
    by_cases hlt : start < (text.length : ℤ)
    · simp only [hlt, if_true] at h
      refine ih _ _ _ h x ?_
      by_cases he : (pyStrip (pySlice text start (start + (size : ℤ)))).isEmpty
      · simpa [he] using hx
      · simp only [he, if_false] at *
        exact List.mem_append_left _ hx
    · simp only [hlt, if_false, Option.some.injEq] at h
      exact h ▸ hx

theorem chunkLoop_cover (text : List Char) (size overlap : ℕ)
    (hov : overlap < size) :
    ∀ (fuel d : ℕ) (acc out : List String),
      chunkLoop text size overlap fuel (d : ℤ) acc = some out →
      ∀ c ∈ text.drop d, ¬ isPySpace c = true → ∃ s ∈ out, c ∈ s.data := by
  have hstep : 1 ≤ size - overlap := by omega
  intro fuel
  induction fuel with
  | zero =>
    intro d acc out h c hc hcs
    rw [chunkLoop] at h
    by_cases hlt : (d : ℤ) < (text.length : ℤ)
    · simp [hlt] at h
    · have : text.length ≤ d := by exact_mod_cast not_lt.mp hlt
      rw [List.drop_eq_nil_of_le this] at hc
      cases hc
  | succ n ih =>
    intro d acc out h c hc hcs
    rw [chunkLoop] at h
    by_cases hlt : (d : ℤ) < (text.length : ℤ)
    · simp only [hlt, if_true] at h
      have hcast : (d : ℤ) + ((size : ℤ) - (overlap : ℤ)) =
          ((d + (size - overlap) : ℕ) : ℤ) := by
        push_cast [Nat.cast_sub hov.le]
        ring
      rw [hcast] at h
      rw [show text.drop d =
          (text.drop d).take (size - overlap) ++ text.drop (d + (size - overlap)) by
        rw [← List.drop_drop]
        exact (List.take_append_drop _ _).symm] at hc
      rcases List.mem_append.mp hc with hfirst | hrest
      · -- c lies in the non-overlap region of this window, hence in the window
        have hwin : c ∈ (text.drop d).take size := by
          have hsub : (text.drop d).take (size - overlap) =
              ((text.drop d).take size).take (size - overlap) := by
            rw [List.take_take, min_eq_left (Nat.sub_le size overlap)]
          rw [hsub] at hfirst
          exact List.take_subset _ _ hfirst
        have hslice : pySlice text (d : ℤ) ((d : ℤ) + (size : ℤ)) =
            (text.drop d).take size := pySlice_nat text d size
        have hmem : c ∈ pyStrip (pySlice text (d : ℤ) ((d : ℤ) + (size : ℤ))) := by
          rw [hslice]
          exact mem_pyStrip _ _ hwin hcs
        have hne : ¬ (pyStrip (pySlice text (d : ℤ) ((d : ℤ) + (size : ℤ)))).isEmpty = true := by
          intro habs
          have h' : pyStrip (pySlice text (d : ℤ) ((d : ℤ) + (size : ℤ))) = [] := by
            simpa using habs
          rw [h'] at hmem
          cases hmem
        rw [if_neg hne] at h
        refine ⟨⟨pyStrip (pySlice text (d : ℤ) ((d : ℤ) + (size : ℤ)))⟩, ?_, hmem⟩
        exact chunkLoop_acc_sub text size overlap _ _ _ _ h _
          (List.mem_append_right _ (List.mem_singleton_self _))
      · exact ih _ _ _ h c hrest hcs
    · have : text.length ≤ d := by exact_mod_cast not_lt.mp hlt
      rw [List.drop_eq_nil_of_le this] at hc
      cases hc

/-- Claim C6.  For valid parameters (`overlap < size`) the chunk windows
cover the text: (1) the `size - overlap`-sized cursor blocks (the chunk
boundaries with overlap regions ignored) concatenate back to the text
exactly; (2) every character position lies inside a window
`[k*step, k*step+size)` whose cursor the loop visits; (3) no non-whitespace
character is lost: each occurs in some returned chunk. -/
theorem chunking_coverage (size overlap : ℕ) (hov : overlap < size)
    (text : String) :
    (tile (size - overlap) text.data).flatten = text.data ∧
      (∀ i < text.data.length, ∃ k, k * (size - overlap) ≤ i ∧
        i < k * (size - overlap) + size ∧
        k * (size - overlap) < text.data.length) ∧
      (∀ c ∈ text.data, ¬ isPySpace c = true →
        ∃ s ∈ chunk_text size overlap text, c ∈ s.data) := by
  have hstep : 0 < size - overlap := by omega
  refine ⟨tile_join _ hstep _, ?_, ?_⟩
  · intro i hi
    refine ⟨i / (size - overlap), Nat.div_mul_le_self i _, ?_, ?_⟩
    · have hmod : i % (size - overlap) < size - overlap := Nat.mod_lt i hstep
      have hdm := Nat.div_add_mod i (size - overlap)
      have h2 : i < i / (size - overlap) * (size - overlap) + (size - overlap) := by
        calc i = (size - overlap) * (i / (size - overlap)) + i % (size - overlap) :=
              hdm.symm
          _ < (size - overlap) * (i / (size - overlap)) + (size - overlap) :=
              Nat.add_lt_add_left hmod _
          _ = i / (size - overlap) * (size - overlap) + (size - overlap) := by
              rw [Nat.mul_comm]
      have hss : size - overlap ≤ size := Nat.sub_le size overlap
      omega
    · exact lt_of_le_of_lt (Nat.div_mul_le_self i _) hi
  · intro c hc hcs
    have hsome := chunkLoop_isSome text.data size overlap hov
      (text.data.length + 1) 0 [] (by push_cast; omega)
    obtain ⟨out, hout⟩ := Option.isSome_iff_exists.mp hsome
    have htx : chunk_text size overlap text = out := by
      rw [chunk_text, hout]
      rfl
    rw [htx]
    exact chunkLoop_cover text.data size overlap hov (text.data.length + 1) 0 [] out
      (by exact_mod_cast hout) c (by simpa using hc) hcs

theorem chunking_coverage_witness :
    4 < 10 ∧
      ((tile (10 - 4) ("AAAA BBBB CCCC DDDD".data)).flatten =
          "AAAA BBBB CCCC DDDD".data ∧
        (∀ i < ("AAAA BBBB CCCC DDDD".data).length, ∃ k, k * (10 - 4) ≤ i ∧
          i < k * (10 - 4) + 10 ∧ k * (10 - 4) < ("AAAA BBBB CCCC DDDD".data).length) ∧
        (∀ c ∈ "AAAA BBBB CCCC DDDD".data, ¬ isPySpace c = true →
          ∃ s ∈ chunk_text 10 4 "AAAA BBBB CCCC DDDD", c ∈ s.data)) :=
  ⟨by decide, chunking_coverage 10 4 (by decide) "AAAA BBBB CCCC DDDD"⟩

/-! ### Lemmas about substring containment and splitting (claims C8, C10) -/

theorem isPrefixOf_iff_append (p : List Char) :
    ∀ s : List Char, p.isPrefixOf s = true ↔ ∃ t, s = p ++ t := by
  induction p with
  | nil =>
    intro s
    simp [List.isPrefixOf]
  | cons a as ih =>
    intro s
    cases s with
    | nil =>
      simp [List.isPrefixOf]
    | cons b bs =>
      simp only [List.isPrefixOf, Bool.and_eq_true, beq_iff_eq, ih, List.cons_append,
        List.cons.injEq]
      constructor
      · rintro ⟨rfl, t, rfl⟩
        exact ⟨t, rfl, rfl⟩
      · rintro ⟨t, rfl, rfl⟩
        exact ⟨rfl, t, rfl⟩

theorem occursIn_iff (sep : List Char) (hsep : sep ≠ []) :
    ∀ s : List Char, occursIn sep s = true ↔ ∃ p q, s = p ++ sep ++ q := by
  intro s
  induction s with
  | nil =>
    rw [occursIn]
    simp only [List.isEmpty_iff]
    constructor
    · intro h
      exact absurd h hsep
    · rintro ⟨p, q, hpq⟩
      have h2 := List.append_eq_nil.mp hpq.symm
      have h3 := List.append_eq_nil.mp h2.1
      exact absurd h3.2 hsep
  | cons c rest ih =>
    rw [occursIn]
    simp only [Bool.or_eq_true, isPrefixOf_iff_append, ih]
    constructor
    · rintro (⟨t, ht⟩ | ⟨p, q, hpq⟩)
      · exact ⟨[], t, by simpa using ht⟩
      · exact ⟨c :: p, q, by simp [hpq]⟩
    · rintro ⟨p, q, hpq⟩
      cases p with
      | nil =>
        exact Or.inl ⟨q, by simpa using hpq⟩
      | cons d p' =>
        right
        rw [List.cons_append, List.cons_append] at hpq
        injection hpq with h1 h2
        exact ⟨p', q, h2⟩

theorem occursIn_parts (sep : List Char) (hsep : sep ≠ []) (u t v : List Char)
    (h : occursIn sep t = true) : occursIn sep (u ++ t ++ v) = true := by
  rw [occursIn_iff sep hsep] at h ⊢
  obtain ⟨p, q, rfl⟩ := h
  exact ⟨u ++ p, q ++ v, by simp⟩

theorem occursIn_sub (sep : List Char) (hsep : sep ≠ []) (u t v : List Char)
    (h : occursIn sep (u ++ t ++ v) = false) : occursIn sep t = false := by
  by_contra habs
  have htrue : occursIn sep t = true := by
    cases hcase : occursIn sep t
    · exact absurd hcase habs
    · rfl
  have hbig := occursIn_parts sep hsep u t v htrue
  rw [hbig] at h
  simp at h

theorem splitOnLF_ne_nil (sep : List Char) :
    ∀ (fuel : ℕ) (s : List Char), splitOnLF sep fuel s ≠ [] := by
  intro fuel s
  cases s with
  | nil => cases fuel <;> simp [splitOnLF]
  | cons c rest =>
    cases fuel with
    | zero => simp [splitOnLF]
    | succ n =>
      rw [splitOnLF]
      by_cases hcond : (!sep.isEmpty && sep.isPrefixOf (c :: rest)) = true
      · simp [hcond]
      · simp only [hcond, if_false]
        cases hsp : splitOnLF sep n rest <;> simp

theorem splitOnLF_head_append (sep : List Char) :
    ∀ (fuel : ℕ) (s seg : List Char) (segs : List (List Char)),
      splitOnLF sep fuel s = seg :: segs → ∃ t, s = seg ++ t := by
  intro fuel
  induction fuel with
  | zero =>
    intro s seg segs h
    cases s with
    | nil =>
      rw [splitOnLF] at h
      injection h with h1 _
      exact ⟨[], by simp [← h1]⟩
    | cons c rest =>
      rw [splitOnLF] at h
      injection h with h1 _
      exact ⟨c :: rest, by simp [← h1]⟩
  | succ n ih =>
    intro s seg segs h
    cases s with
    | nil =>
      rw [splitOnLF] at h
      injection h with h1 _
      exact ⟨[], by simp [← h1]⟩
    | cons c rest =>
      rw [splitOnLF] at h
      by_cases hcond : (!sep.isEmpty && sep.isPrefixOf (c :: rest)) = true
      · rw [if_pos hcond] at h
        injection h with h1 _
        exact ⟨c :: rest, by simp [← h1]⟩
      · rw [if_neg hcond] at h
        cases hsp : splitOnLF sep n rest with
        | nil => exact absurd hsp (splitOnLF_ne_nil sep n rest)
        | cons seg' segs' =>
          rw [hsp] at h
          injection h with h1 h2
          obtain ⟨t, ht⟩ := ih rest seg' segs' hsp
          exact ⟨t, by rw [← h1, ht, List.cons_append]⟩

theorem intercalateL_cons_cons (sep x y : List Char) (xs : List (List Char)) :
    intercalateL sep (x :: y :: xs) = x ++ sep ++ intercalateL sep (y :: xs) := rfl

theorem splitOnLF_intercalate (sep : List Char) (hsep : sep ≠ []) :
    ∀ (fuel : ℕ) (s : List Char), s.length ≤ fuel →
      intercalateL sep (splitOnLF sep fuel s) = s := by
  intro fuel
  induction fuel with
  | zero =>
    intro s hs
    have : s = [] := List.eq_nil_of_length_eq_zero (Nat.le_zero.mp hs)
    subst this
    rfl
  | succ n ih =>
    intro s hs
    cases s with
    | nil => rfl
    | cons c rest =>
      rw [splitOnLF]
      by_cases hcond : (!sep.isEmpty && sep.isPrefixOf (c :: rest)) = true
      · rw [if_pos hcond]
        have hpre : sep.isPrefixOf (c :: rest) = true := (Bool.and_eq_true _ _ |>.mp hcond).2
        obtain ⟨t, ht⟩ := (isPrefixOf_iff_append sep (c :: rest)).mp hpre
        have hdrop : (c :: rest).drop sep.length = t := by
          rw [ht, List.drop_left]
        rw [hdrop]
        have hlt : t.length ≤ n := by
          have h1 : (c :: rest).length = sep.length + t.length := by
            rw [ht, List.length_append]
          have h2 : 1 ≤ sep.length := List.length_pos.mpr hsep
          simp only [List.length_cons] at h1 hs
          omega
        cases hsp : splitOnLF sep n t with
        | nil => exact absurd hsp (splitOnLF_ne_nil sep n t)
        | cons p ps =>
          rw [intercalateL_cons_cons, ← hsp, ih t hlt, List.nil_append, ← ht]
      · rw [if_neg hcond]
        cases hsp : splitOnLF sep n rest with
        | nil => exact absurd hsp (splitOnLF_ne_nil sep n rest)
        | cons seg segs =>
          have hrest : intercalateL sep (seg :: segs) = rest := by
            rw [← hsp]
            exact ih rest (by simpa using Nat.le_of_succ_le_succ (by simpa using hs))
          cases segs with
          | nil =>
            simp only [intercalateL] at hrest ⊢
            rw [hrest]
          | cons g gs =>
            rw [intercalateL_cons_cons]
            rw [intercalateL_cons_cons] at hrest
            rw [List.cons_append, List.cons_append, hrest]

theorem occursIn_nil (sep : List Char) (hsep : sep ≠ []) :
    occursIn sep [] = false := by
  cases sep with
  | nil => exact absurd rfl hsep
  | cons a as => rfl

theorem splitOnLF_parts_free (sep : List Char) (hsep : sep ≠ []) :
    ∀ (fuel : ℕ) (s : List Char), s.length ≤ fuel →
      ∀ part ∈ splitOnLF sep fuel s, occursIn sep part = false := by
  intro fuel
  induction fuel with
  | zero =>
    intro s hs part hpart
    have : s = [] := List.eq_nil_of_length_eq_zero (Nat.le_zero.mp hs)
    subst this
    rw [splitOnLF] at hpart
    rcases List.mem_singleton.mp hpart with rfl
    exact occursIn_nil sep hsep
  | succ n ih =>
    intro s hs part hpart
    cases s with
    | nil =>
      rw [splitOnLF] at hpart
      rcases List.mem_singleton.mp hpart with rfl
      exact occursIn_nil sep hsep
    | cons c rest =>
      rw [splitOnLF] at hpart
      by_cases hcond : (!sep.isEmpty && sep.isPrefixOf (c :: rest)) = true
      · rw [if_pos hcond] at hpart
        rcases List.mem_cons.mp hpart with rfl | hmem
        · exact occursIn_nil sep hsep
        · apply ih _ _ part hmem
          have h2 : 1 ≤ sep.length := List.length_pos.mpr hsep
          simp only [List.length_drop, List.length_cons]
          simp only [List.length_cons] at hs
          omega
      · rw [if_neg hcond] at hpart
        cases hsp : splitOnLF sep n rest with
        | nil => exact absurd hsp (splitOnLF_ne_nil sep n rest)
        | cons seg segs =>
          rw [hsp] at hpart
          have hrest_le : rest.length ≤ n := by
            simp only [List.length_cons] at hs
            omega
          rcases List.mem_cons.mp hpart with rfl | hmem
          · rw [occursIn]
            have hseg : occursIn sep seg = false :=
              ih rest hrest_le seg (by rw [hsp]; exact List.mem_cons_self _ _)
            have hpre : sep.isPrefixOf (c :: seg) = false := by
              cases hcase : sep.isPrefixOf (c :: seg) with
              | false => rfl
              | true =>
                obtain ⟨t, ht⟩ := (isPrefixOf_iff_append sep (c :: seg)).mp hcase
                obtain ⟨t', ht'⟩ := splitOnLF_head_append sep n rest seg segs hsp
                have hbig : sep.isPrefixOf (c :: rest) = true := by
                  rw [isPrefixOf_iff_append]
                  refine ⟨t ++ t', ?_⟩
                  rw [ht', ← List.cons_append, ht, List.append_assoc]
                exact absurd (by simp [hbig, hsep]) hcond
            rw [hpre, hseg]
            rfl
          · exact ih rest hrest_le part (by rw [hsp]; exact List.mem_cons_of_mem _ hmem)

theorem cleanStart_free (t t1 : List Char) (h : cleanStart t = some t1) :
    occursIn startMarker t1 = false := by
  rw [cleanStart] at h
  by_cases hS : occursIn startMarker t = true
  · rw [if_pos hS] at h
    cases h1 : (splitOnL startMarker t)[1]? with
    | none => rw [h1] at h; cases h
    | some afterM =>
      rw [h1, Option.some_bind] at h
      have hmem : afterM ∈ splitOnL startMarker t := List.getElem?_mem h1
      rw [splitOnL] at hmem
      have hfree : occursIn startMarker afterM = false :=
        splitOnLF_parts_free startMarker (by decide) t.length t le_rfl afterM hmem
      rw [splitOnce] at h
      cases hsp : splitOnL sepStars afterM with
      | nil => rw [hsp] at h; cases h
      | cons a rest =>
        cases rest with
        | nil => rw [hsp] at h; cases h
        | cons r rs =>
          rw [hsp] at h
          have ht1 : t1 = intercalateL sepStars (r :: rs) := by
            simp only [List.getElem?_cons_succ, List.getElem?_cons_zero,
              Option.some.injEq] at h
            exact h.symm
          have hAfter : afterM = a ++ sepStars ++ t1 := by
            have hi := splitOnLF_intercalate sepStars (by decide) afterM.length afterM le_rfl
            rw [splitOnL] at hsp
            rw [hsp, intercalateL_cons_cons, ← ht1] at hi
            exact hi.symm
          have hfree2 : occursIn startMarker ((a ++ sepStars) ++ t1 ++ []) = false := by
            rw [List.append_nil, ← hAfter]
            exact hfree
          exact occursIn_sub startMarker (by decide) (a ++ sepStars) t1 [] hfree2
  · rw [if_neg hS] at h
    injection h with h1
    subst h1
    simpa using hS

theorem cleanEnd_free (t1 : List Char) (hS : occursIn startMarker t1 = false) :
    occursIn startMarker (cleanEnd t1) = false ∧
      occursIn endMarker (cleanEnd t1) = false := by
  rw [cleanEnd]
  by_cases hE : occursIn endMarker t1 = true
  · rw [if_pos hE]
    cases hsp : splitOnL endMarker t1 with
    | nil =>
      rw [splitOnL] at hsp
      exact absurd hsp (splitOnLF_ne_nil _ _ _)
    | cons h0 rest =>
      rw [List.headD_cons]
      rw [splitOnL] at hsp
      constructor
      · obtain ⟨tl, htl⟩ := splitOnLF_head_append endMarker t1.length t1 h0 rest hsp
        have hsplit : occursIn startMarker ([] ++ h0 ++ tl) = false := by
          rw [List.nil_append, ← htl]
          exact hS
        exact occursIn_sub startMarker (by decide) [] h0 tl hsplit
      · exact splitOnLF_parts_free endMarker (by decide) t1.length t1 le_rfl h0
          (by rw [hsp]; exact List.mem_cons_self _ _)
  · rw [if_neg hE]
    exact ⟨hS, by simpa using hE⟩

theorem clean_free (text o : String) (h : clean_gutenberg_text text = some o) :
    occursIn startMarker o.data = false ∧ occursIn endMarker o.data = false := by
  rw [clean_gutenberg_text] at h
  cases hcs : cleanStart text.data with
  | none => rw [hcs] at h; cases h
  | some t1 =>
    rw [hcs, Option.map_some'] at h
    have ho : o.data = cleanEnd t1 := by
      injection h with h1
      rw [← h1]
    rw [ho]
    exact cleanEnd_free t1 (cleanStart_free text.data t1 hcs)

theorem clean_no_markers (t : String) (hS : occursIn startMarker t.data = false)
    (hE : occursIn endMarker t.data = false) : clean_gutenberg_text t = some t := by
  rw [clean_gutenberg_text, cleanStart, if_neg (by simp [hS]), Option.map_some']
  rw [cleanEnd, if_neg (by simp [hE])]

/-- Claim C8.  The normalizer is a pure function of its input (it is a plain
function in this embedding) and is idempotent: a second application returns
the first application's result unchanged, because the first pass always
removes every occurrence of both markers; and a text containing neither
marker passes through unchanged. -/
theorem clean_gutenberg_pure_idempotent (text : String) :
    (clean_gutenberg_text text).bind clean_gutenberg_text =
        clean_gutenberg_text text ∧
      (occursIn startMarker text.data = false →
        occursIn endMarker text.data = false →
        clean_gutenberg_text text = some text) := by
  constructor
  · cases h : clean_gutenberg_text text with
    | none => rfl
    | some o =>
      obtain ⟨hS, hE⟩ := clean_free text o h
      rw [Option.some_bind]
      exact clean_no_markers o hS hE
  · intro hS hE
    exact clean_no_markers text hS hE

theorem clean_gutenberg_pure_idempotent_witness :
    occursIn startMarker ("plain body".data) = false ∧
      occursIn endMarker ("plain body".data) = false ∧
      clean_gutenberg_text "plain body" = some "plain body" :=
  ⟨by decide, by decide,
    (clean_gutenberg_pure_idempotent "plain body").2 (by decide) (by decide)⟩

/-- Claim C10.  The normalizer is partial: on an input that contains the
start marker `"*** START OF"` with no `"***"` anywhere after it, the Python
code's `[1]` index into the one-element list returned by `split("***", 1)`
raises an `IndexError` (the `none` result) instead of returning a cleaned
string. -/
theorem clean_gutenberg_index_error :
    occursIn startMarker ("*** START OFxyz".data) = true ∧
      occursIn sepStars
          (((splitOnL startMarker ("*** START OFxyz".data))[1]?).getD []) = false ∧
      clean_gutenberg_text "*** START OFxyz" = none := by
  decide

/-! ### Chunk-id arithmetic (claim C9): decimal rendering is injective and
produces digit characters, and `{book}_chunk_{digits}` decomposes uniquely. -/

theorem digChar_toNat : ∀ d, d < 10 → (digChar d).toNat = 48 + d := by decide

theorem digChar_isDigit : ∀ d, d < 10 → (digChar d).isDigit = true := by decide

def digitsVal (l : List Char) : ℕ :=
  l.foldl (fun acc c => acc * 10 + (c.toNat - 48)) 0

theorem digitsVal_natToDigitsF :
    ∀ (fuel n : ℕ), n < fuel → digitsVal (natToDigitsF fuel n) = n := by
  intro fuel
  induction fuel with
  | zero => intro n h; exact absurd h (Nat.not_lt_zero n)
  | succ f ih =>
    intro n h
    rw [natToDigitsF]
    by_cases h10 : n < 10
    · rw [if_pos h10, digitsVal]
      simp only [List.foldl_cons, List.foldl_nil, Nat.zero_mul, Nat.zero_add]
      rw [digChar_toNat n h10]
      omega
    · rw [if_neg h10, digitsVal, List.foldl_append]
      have hdiv : n / 10 < f := by
        have h1 : n / 10 < n := Nat.div_lt_self (by omega) (by omega)
        omega
      have hih := ih (n / 10) hdiv
      rw [digitsVal] at hih
      rw [hih]
      simp only [List.foldl_cons, List.foldl_nil]
      rw [digChar_toNat (n % 10) (Nat.mod_lt n (by omega))]
      have := Nat.div_add_mod n 10
      omega

theorem natRepr_inj (m n : ℕ) (h : natRepr m = natRepr n) : m = n := by
  have hd : natToDigitsF (m + 1) m = natToDigitsF (n + 1) n := congrArg String.data h
  have h1 := digitsVal_natToDigitsF (m + 1) m (by omega)
  have h2 := digitsVal_natToDigitsF (n + 1) n (by omega)
  rw [hd, h2] at h1
  exact h1.symm

theorem natToDigitsF_digits :
    ∀ (fuel n : ℕ), n < fuel → ∀ c ∈ natToDigitsF fuel n, c.isDigit = true := by
  intro fuel
  induction fuel with
  | zero => intro n h; exact absurd h (Nat.not_lt_zero n)
  | succ f ih =>
    intro n h c hc
    rw [natToDigitsF] at hc
    by_cases h10 : n < 10
    · rw [if_pos h10] at hc
      rcases List.mem_singleton.mp hc with rfl
      exact digChar_isDigit n h10
    · rw [if_neg h10] at hc
      rcases List.mem_append.mp hc with hl | hr
      · have hdiv : n / 10 < f := by
          have h1 : n / 10 < n := Nat.div_lt_self (by omega) (by omega)
          omega
        exact ih (n / 10) hdiv c hl
      · rcases List.mem_singleton.mp hr with rfl
        exact digChar_isDigit (n % 10) (Nat.mod_lt n (by omega))

theorem natRepr_digits (n : ℕ) : ∀ c ∈ (natRepr n).data, c.isDigit = true :=
  natToDigitsF_digits (n + 1) n (by omega)

def sepChunk : List Char := "_chunk_".data

theorem sep_digits_len_ne (a b d e : List Char)
    (he : ∀ c ∈ e, c.isDigit = true) (hlt : d.length < e.length) :
    (a ++ sepChunk) ++ d ≠ (b ++ sepChunk) ++ e := by
  intro heq
  have hrev : d.reverse ++ (sepChunk.reverse ++ a.reverse) =
      e.reverse ++ (sepChunk.reverse ++ b.reverse) := by
    have h0 := congrArg List.reverse heq
    simpa [List.reverse_append, List.append_assoc] using h0
  have h1 : (d.reverse ++ (sepChunk.reverse ++ a.reverse))[d.length]? = some '_' := by
    rw [List.getElem?_append_right (by simp)]
    simp only [List.length_reverse, Nat.sub_self]
    rw [List.getElem?_append_left (by decide : (0 : ℕ) < sepChunk.reverse.length)]
    decide
  have h2 : (e.reverse ++ (sepChunk.reverse ++ b.reverse))[d.length]? =
      e.reverse[d.length]? :=
    List.getElem?_append_left (by simpa using hlt)
  rw [hrev, h2] at h1
  have hmem : '_' ∈ e.reverse := List.getElem?_mem h1
  have hdig := he '_' (List.mem_reverse.mp hmem)
  cases hdig

theorem sep_digits_inj (a b d e : List Char)
    (hd : ∀ c ∈ d, c.isDigit = true) (he : ∀ c ∈ e, c.isDigit = true)
    (h : (a ++ sepChunk) ++ d = (b ++ sepChunk) ++ e) : a = b ∧ d = e := by
  rcases Nat.lt_trichotomy d.length e.length with hlt | heq | hgt
  · exact absurd h (sep_digits_len_ne a b d e he hlt)
  · obtain ⟨h1, h2⟩ := List.append_inj' h heq
    exact ⟨List.append_cancel_right h1, h2⟩
  · exact absurd h.symm (sep_digits_len_ne b a e d hd hgt)

theorem string_id_data (bid : String) (k : ℕ) :
    (bid ++ "_chunk_" ++ natRepr k).data =
      (bid.data ++ sepChunk) ++ (natRepr k).data := by
  rw [String.data_append, String.data_append]
  rfl

theorem chunk_id_inj (bid : String) (i j : ℕ)
    (h : bid ++ "_chunk_" ++ natRepr i = bid ++ "_chunk_" ++ natRepr j) : i = j := by
  have hd := congrArg String.data h
  rw [string_id_data, string_id_data] at hd
  have hcancel := List.append_cancel_left hd
  exact natRepr_inj i j (congrArg String.mk hcancel)

theorem chunk_id_cross (b1 b2 : String) (i j : ℕ) (hb : b1 ≠ b2) :
    b1 ++ "_chunk_" ++ natRepr i ≠ b2 ++ "_chunk_" ++ natRepr j := by
  intro h
  have hd := congrArg String.data h
  rw [string_id_data, string_id_data] at hd
  obtain ⟨h1, -⟩ := sep_digits_inj _ _ _ _ (natRepr_digits i) (natRepr_digits j) hd
  exact hb (congrArg String.mk h1)

theorem chunkLoop_ne_empty (text : List Char) (size overlap : ℕ) :
    ∀ (fuel : ℕ) (start : ℤ) (acc out : List String),
      chunkLoop text size overlap fuel start acc = some out →
      (∀ s ∈ acc, s ≠ "") → ∀ s ∈ out, s ≠ "" := by
  intro fuel
  induction fuel with
  | zero =>
    intro start acc out h hacc s hs
    rw [chunkLoop] at h
    by_cases hlt : start < (text.length : ℤ)
    · simp [hlt] at h
    · rw [if_neg hlt] at h
      injection h with h1
      exact hacc s (h1 ▸ hs)
  | succ n ih =>
    intro start acc out h hacc s hs
    rw [chunkLoop] at h
    by_cases hlt : start < (text.length : ℤ)
    · simp only [hlt, if_true] at h
      refine ih _ _ _ h ?_ s hs
      intro x hx
      by_cases he : (pyStrip (pySlice text start (start + (size : ℤ)))).isEmpty = true
      · rw [if_pos he] at hx
        exact hacc x hx
      · rw [if_neg he] at hx
        rcases List.mem_append.mp hx with hxa | hxs
        · exact hacc x hxa
        · rcases List.mem_singleton.mp hxs with rfl
          intro habs
          have hl : pyStrip (pySlice text start (start + (size : ℤ))) = [] :=
            congrArg String.data habs
          rw [hl] at he
          exact he rfl
    · rw [if_neg hlt] at h
      injection h with h1
      exact hacc s (h1 ▸ hs)

theorem chunk_text_ne_empty (size overlap : ℕ) (text : String) :
    ∀ s ∈ chunk_text size overlap text, s ≠ "" := by
  intro s hs
  rw [chunk_text] at hs
  cases h : chunkLoop text.data size overlap (text.data.length + 1) 0 [] with
  | none =>
    rw [h] at hs
    cases hs
  | some out =>
    rw [h] at hs
    simp only [Option.getD_some] at hs
    exact chunkLoop_ne_empty text.data size overlap _ _ _ _ h
      (by intro x hx; cases hx) s hs

/-- The store invariant of §3 of the spec: chunk ids are unique within the
store, and every id has the `{book}_chunk_{i}` shape for its own book tag. -/
def StoreInv {E : Type} (store : Store E) : Prop :=
  (store.map (fun r => r.id)).Nodup ∧
    ∀ r ∈ store, ∃ j : ℕ, r.id = r.book ++ "_chunk_" ++ natRepr j

/-- Claim C9.  Every chunk record written by one ingestion call has id
`"{book_id}_chunk_{i}"` with `i` the chunk's position in chunk order, book
tag `book_id`, title tag `title or book_id`, and non-empty text
(whitespace-only windows are dropped by the chunker); and on a store
satisfying the id invariant, the resulting store again has pairwise-distinct
chunk ids (ids of distinct books cannot collide because the digit suffix
forces a unique decomposition at the last `"_chunk_"`). -/
theorem ingest_book_record_invariants {E : Type} [Inhabited E]
    (size overlap : ℕ) (embed : String → E) (store : Store E)
    (text book_id : String) (title : Option String) (s' : Store E) (n : ℕ)
    (hinv : StoreInv store)
    (hing : ingest_book size overlap embed store text book_id title = some (s', n)) :
    ∃ recs : Store E, s' = delete_book store book_id ++ recs ∧
      recs.length = n ∧
      (∀ (k : ℕ) (hk : k < recs.length),
        recs[k].id = book_id ++ "_chunk_" ++ natRepr k ∧
        recs[k].book = book_id ∧
        recs[k].title = pyOrString title book_id ∧
        recs[k].doc ≠ "") ∧
      StoreInv s' := by
  rw [ingest_book] at hing
  cases hc : clean_gutenberg_text text with
  | none => rw [hc] at hing; cases hing
  | some clean_text =>
    rw [hc] at hing
    simp only [Option.some.injEq, Prod.mk.injEq] at hing
    obtain ⟨hs, hn⟩ := hing
    rw [add_chunks] at hs
    refine ⟨(List.range (chunk_text size overlap clean_text).length).map (fun i =>
      ({ id := book_id ++ "_chunk_" ++ natRepr i
         emb := ((chunk_text size overlap clean_text).map embed).getD i default
         doc := (chunk_text size overlap clean_text).getD i ""
         book := book_id
         title := pyOrString title book_id } : ChunkRecord E)), hs.symm, ?_, ?_, ?_⟩
    · simpa using hn
    · intro k hk
      simp only [List.length_map, List.length_range] at hk
      simp only [List.getElem_map, List.getElem_range]
      refine ⟨trivial, trivial, trivial, ?_⟩
      rw [List.getD_eq_getElem _ _ hk]
      exact chunk_text_ne_empty size overlap clean_text _ (List.getElem_mem hk)
    · rw [← hs]
      constructor
      · rw [List.map_append, List.nodup_append]
        refine ⟨?_, ?_, ?_⟩
        · exact List.Nodup.sublist
            (List.Sublist.map _ (List.filter_sublist store)) hinv.1
        · rw [List.map_map]
          apply (List.nodup_map_iff_inj_on (List.nodup_range _)).mpr
          intro x _ y _ hxy
          exact chunk_id_inj book_id x y hxy
        · intro a ha hb
          obtain ⟨r, hrmem, hrid⟩ := List.mem_map.mp ha
          obtain ⟨r2, hr2mem, hr2id⟩ := List.mem_map.mp hb
          obtain ⟨i, -, rfl⟩ := List.mem_map.mp hr2mem
          have hrstore := List.mem_of_mem_filter hrmem
          have hrbook : r.book ≠ book_id := by
            have := (List.mem_filter.mp hrmem).2
            simpa using this
          obtain ⟨j, hj⟩ := hinv.2 r hrstore
          have hsame : r.id = book_id ++ "_chunk_" ++ natRepr i := by
            rw [hrid, ← hr2id]
          rw [hj] at hsame
          exact chunk_id_cross r.book book_id j i hrbook hsame
      · intro r hr
        rcases List.mem_append.mp hr with hold | hnew
        · exact hinv.2 r (List.mem_of_mem_filter hold)
        · obtain ⟨i, -, rfl⟩ := List.mem_map.mp hnew
          exact ⟨i, rfl⟩

theorem ingest_book_record_invariants_witness :
    ∃ recs : Store ℕ,
      ([⟨"oz_chunk_0", 5, "world", "oz", "oz"⟩,
        ⟨"alice_chunk_0", 5, "hello", "alice", "alice"⟩] : Store ℕ) =
          delete_book [⟨"oz_chunk_0", 5, "world", "oz", "oz"⟩] "alice" ++ recs ∧
        recs.length = 1 ∧
        (∀ (k : ℕ) (hk : k < recs.length),
          recs[k].id = "alice" ++ "_chunk_" ++ natRepr k ∧
          recs[k].book = "alice" ∧
          recs[k].title = pyOrString none "alice" ∧
          recs[k].doc ≠ "") ∧
        StoreInv [⟨"oz_chunk_0", 5, "world", "oz", "oz"⟩,
          ⟨"alice_chunk_0", 5, "hello", "alice", "alice"⟩] :=
  ingest_book_record_invariants 10 4 String.length
    [⟨"oz_chunk_0", 5, "world", "oz", "oz"⟩] "hello" "alice" none
    [⟨"oz_chunk_0", 5, "world", "oz", "oz"⟩,
      ⟨"alice_chunk_0", 5, "hello", "alice", "alice"⟩] 1
    ⟨by decide, fun r hr => by
      rcases List.mem_singleton.mp hr with rfl
      exact ⟨0, by decide⟩⟩
    (by decide)
